import Mathlib

/-!
Verification of the grab downloader core against its specification.

The Go source is shallowly embedded: pure functions become Lean functions,
the stateful chunk-download loop becomes explicit state passing over an
event list, machine integers (Go int / int64 / uint32) become Int or Nat
(no arithmetic here comes near the 64-bit boundary), Go strings become
List Char, and fallible code returns Option / Except.  Each embedded
definition names the Go function it is translated from.
-/

namespace Grab

/-- Embeds `chunkInfo` (logger.go): one persisted download chunk.
Go types: Index int; Start, End, Size, Downloaded int64; Completed bool;
Retries int. -/
structure ChunkInfo where
  Index : Int
  Start : Int
  End : Int
  Size : Int
  Downloaded : Int
  Completed : Bool
  Retries : Int
deriving DecidableEq, Repr

/-- Embeds `chunkDownloader.initializeChunks` (logger.go): builds the fresh
chunk plan.  `numChunks = (totalSize + chunkSize - 1) / chunkSize`; chunk i
covers `[i*chunkSize, min(i*chunkSize + chunkSize - 1, totalSize - 1)]`. -/
def initializeChunks (totalSize chunkSize : Int) : List ChunkInfo :=
  let numChunks := ((totalSize + chunkSize - 1) / chunkSize).toNat
  (List.range numChunks).map (fun (i : Nat) =>
    let start : Int := (i : Int) * chunkSize
    let end0 : Int := start + chunkSize - 1
    let endv : Int := if end0 ≥ totalSize then totalSize - 1 else end0
    { Index := (i : Int), Start := start, End := endv, Size := endv - start + 1,
      Downloaded := 0, Completed := false, Retries := 0 })

theorem initializeChunks_length (N c : Int) :
    (initializeChunks N c).length = ((N + c - 1) / c).toNat := by
  simp only [initializeChunks, List.length_map, List.length_range]

theorem initializeChunks_get (N c : Int) (i : Nat)
    (h : i < (initializeChunks N c).length) :
    (initializeChunks N c).get ⟨i, h⟩ =
      { Index := (i : Int), Start := (i : Int) * c,
        End := if (i : Int) * c + c - 1 ≥ N then N - 1 else (i : Int) * c + c - 1,
        Size := (if (i : Int) * c + c - 1 ≥ N then N - 1 else (i : Int) * c + c - 1)
                  - (i : Int) * c + 1,
        Downloaded := 0, Completed := false, Retries := 0 } := by
  simp only [initializeChunks, List.get_eq_getElem, List.getElem_map, List.getElem_range]

/-- Arithmetic facts about the ceiling chunk count `k = (N + c - 1) / c`. -/
theorem ceil_chunk_bounds (N c : Int) (hN : 1 ≤ N) (hc : 1 ≤ c) :
    1 ≤ (N + c - 1) / c ∧ N ≤ ((N + c - 1) / c) * c ∧ (((N + c - 1) / c) - 1) * c < N := by
  have hc0 : (0 : Int) < c := by omega
  have hdm := Int.ediv_add_emod (N + c - 1) c
  have h1 : 0 ≤ (N + c - 1) % c := Int.emod_nonneg _ (by omega)
  have h2 : (N + c - 1) % c < c := Int.emod_lt_of_pos _ hc0
  have hk1 : 1 ≤ (N + c - 1) / c := by
    rw [Int.le_ediv_iff_mul_le hc0]
    omega
  refine ⟨hk1, ?_, ?_⟩
  · nlinarith [hdm, h1, h2]
  · nlinarith [hdm, h1, h2]

/-- C1: For every `totalSize ≥ 1` and `chunkSize ≥ 1`, the fresh plan built by
`initializeChunks` has `ceil(totalSize/chunkSize)` chunks with dense indices
from 0; byte ranges are contiguous, start at 0, end at `totalSize - 1`
(partitioning `[0, totalSize)`); each `Size` is `End - Start + 1`; the sizes
sum to `totalSize`; every chunk except possibly the last has size exactly
`chunkSize` and no chunk is larger; all chunks start not-downloaded. -/
theorem initializeChunks_plan (N c : Int) (hN : 1 ≤ N) (hc : 1 ≤ c) :
    (initializeChunks N c).length = ((N + c - 1) / c).toNat ∧
    (∀ i (h : i < (initializeChunks N c).length),
        ((initializeChunks N c).get ⟨i, h⟩).Index = (i : Int)) ∧
    (∀ i (h : i < (initializeChunks N c).length),
        ((initializeChunks N c).get ⟨i, h⟩).Size =
          ((initializeChunks N c).get ⟨i, h⟩).End
            - ((initializeChunks N c).get ⟨i, h⟩).Start + 1) ∧
    (∀ h : 0 < (initializeChunks N c).length,
        ((initializeChunks N c).get ⟨0, h⟩).Start = 0) ∧
    (∀ i (h : i + 1 < (initializeChunks N c).length) (h' : i < (initializeChunks N c).length),
        ((initializeChunks N c).get ⟨i + 1, h⟩).Start =
          ((initializeChunks N c).get ⟨i, h'⟩).End + 1) ∧
    (∀ h : 0 < (initializeChunks N c).length,
        ((initializeChunks N c).get ⟨(initializeChunks N c).length - 1,
            Nat.sub_lt h Nat.one_pos⟩).End = N - 1) ∧
    (((initializeChunks N c).map ChunkInfo.Size).sum = N) ∧
    (∀ i (h : i < (initializeChunks N c).length),
        (i + 1 < (initializeChunks N c).length →
          ((initializeChunks N c).get ⟨i, h⟩).Size = c) ∧
        ((initializeChunks N c).get ⟨i, h⟩).Size ≤ c ∧
        1 ≤ ((initializeChunks N c).get ⟨i, h⟩).Size ∧
        ((initializeChunks N c).get ⟨i, h⟩).Downloaded = 0 ∧
        ((initializeChunks N c).get ⟨i, h⟩).Completed = false) := by
  obtain ⟨hk1, hkN, hkN'⟩ := ceil_chunk_bounds N c hN hc
  set k : Int := (N + c - 1) / c with hk
  have hklen : (initializeChunks N c).length = k.toNat := initializeChunks_length N c
  have hkcast : (k.toNat : Int) = k := Int.toNat_of_nonneg (by omega)
  -- bound on non-last chunks: their raw end stays below N
  have hmid : ∀ i : Nat, (i : Int) + 1 < k → (i : Int) * c + c - 1 < N := by
    intro i hi
    have : ((i : Int) + 1) * c ≤ (k - 1) * c :=
      mul_le_mul_of_nonneg_right (by omega) (by omega)
    nlinarith
  -- the last chunk's raw end reaches at least N - 1
  have hlast : ∀ i : Nat, (i : Int) = k - 1 → (i : Int) * c + c - 1 ≥ N - 1 := by
    intro i hi
    have : (i : Int) * c + c = k * c := by rw [hi]; ring
    omega
  -- every chunk's start is at most N - 1
  have hstart : ∀ i : Nat, (i : Int) < k → (i : Int) * c ≤ N - 1 := by
    intro i hi
    have : (i : Int) * c ≤ (k - 1) * c :=
      mul_le_mul_of_nonneg_right (by omega) (by omega)
    nlinarith
  refine ⟨hklen, ?_, ?_, ?_, ?_, ?_, ?_, ?_⟩
  · intro i h; rw [initializeChunks_get]
  · intro i h; rw [initializeChunks_get]
  · intro h; rw [initializeChunks_get]; simp
  · intro i h h'
    rw [initializeChunks_get, initializeChunks_get]
    have hi : (i : Int) + 1 < k := by
      rw [hklen] at h; omega
    have := hmid i hi
    simp only [ge_iff_le]
    rw [if_neg (by omega)]
    push_cast; ring
  · intro h
    rw [initializeChunks_get]
    have hik : ((k.toNat - 1 : Nat) : Int) = k - 1 := by
      rw [hklen] at h; omega
    rw [hklen]
    have hge := hlast (k.toNat - 1) hik
    simp only [ge_iff_le]
    by_cases hcase : N ≤ (↑(k.toNat - 1) : Int) * c + c - 1
    · rw [if_pos hcase]
    · rw [if_neg hcase]; omega
  · -- sum of sizes equals N
    have hkn : k.toNat = (k.toNat - 1) + 1 := by omega
    set m : Nat := k.toNat - 1 with hm
    have hmcast : (m : Int) = k - 1 := by omega
    have hmap : (initializeChunks N c).map ChunkInfo.Size =
        (List.range (m + 1)).map (fun (i : Nat) =>
          (if (i : Int) * c + c - 1 ≥ N then N - 1 else (i : Int) * c + c - 1)
            - (i : Int) * c + 1) := by
      rw [initializeChunks, List.map_map, ← hkn]
      exact List.map_congr_left (fun i _ => rfl)
    rw [hmap, List.range_succ, List.map_append, List.sum_append]
    have hone : ((List.range m).map (fun (i : Nat) =>
        (if (i : Int) * c + c - 1 ≥ N then N - 1 else (i : Int) * c + c - 1)
          - (i : Int) * c + 1)) = List.replicate m c := by
      rw [List.eq_replicate_iff]
      constructor
      · simp
      · intro b hb
        simp only [List.mem_map, List.mem_range] at hb
        obtain ⟨i, hi, hbi⟩ := hb
        have hmid' := hmid i (by omega)
        rw [if_neg (by omega)] at hbi
        omega
    rw [hone, List.sum_replicate, nsmul_eq_mul]
    have hge := hlast m hmcast
    simp only [List.map_cons, List.map_nil, List.sum_cons, List.sum_nil]
    by_cases hcase : N ≤ (m : Int) * c + c - 1
    · rw [if_pos (by simpa [ge_iff_le] using hcase)]
      have : (m : Int) * c = (k - 1) * c := by rw [hmcast]
      nlinarith
    · rw [if_neg (by simpa [ge_iff_le] using hcase)]
      have : (m : Int) * c = (k - 1) * c := by rw [hmcast]
      nlinarith
  · intro i h
    rw [hklen] at h
    have hik : (i : Int) < k := by omega
    rw [initializeChunks_get]
    constructor
    · intro hlt
      rw [hklen] at hlt
      have := hmid i (by omega)
      simp only [ge_iff_le]
      rw [if_neg (by omega)]
      ring
    · have hst := hstart i hik
      refine ⟨?_, ?_, rfl, rfl⟩
      · by_cases hcase : (i : Int) * c + c - 1 ≥ N
        · simp only [ge_iff_le] at hcase ⊢
          rw [if_pos hcase]; omega
        · simp only [ge_iff_le] at hcase ⊢
          rw [if_neg hcase]; omega
      · by_cases hcase : (i : Int) * c + c - 1 ≥ N
        · simp only [ge_iff_le] at hcase ⊢
          rw [if_pos hcase]; omega
        · simp only [ge_iff_le] at hcase ⊢
          rw [if_neg hcase]; omega

/-- Witness for C1 at `totalSize = 5`, `chunkSize = 2` (3 chunks: 2+2+1). -/
theorem initializeChunks_plan_witness :
    (1 : Int) ≤ 5 ∧ (1 : Int) ≤ 2 ∧
    ((initializeChunks 5 2).length = (((5 : Int) + 2 - 1) / 2).toNat ∧
     (∀ i (h : i < (initializeChunks 5 2).length),
         ((initializeChunks 5 2).get ⟨i, h⟩).Index = (i : Int)) ∧
     (∀ i (h : i < (initializeChunks 5 2).length),
         ((initializeChunks 5 2).get ⟨i, h⟩).Size =
           ((initializeChunks 5 2).get ⟨i, h⟩).End
             - ((initializeChunks 5 2).get ⟨i, h⟩).Start + 1) ∧
     (∀ h : 0 < (initializeChunks 5 2).length,
         ((initializeChunks 5 2).get ⟨0, h⟩).Start = 0) ∧
     (∀ i (h : i + 1 < (initializeChunks 5 2).length) (h' : i < (initializeChunks 5 2).length),
         ((initializeChunks 5 2).get ⟨i + 1, h⟩).Start =
           ((initializeChunks 5 2).get ⟨i, h'⟩).End + 1) ∧
     (∀ h : 0 < (initializeChunks 5 2).length,
         ((initializeChunks 5 2).get ⟨(initializeChunks 5 2).length - 1,
             Nat.sub_lt h Nat.one_pos⟩).End = (5 : Int) - 1) ∧
     (((initializeChunks 5 2).map ChunkInfo.Size).sum = 5) ∧
     (∀ i (h : i < (initializeChunks 5 2).length),
         (i + 1 < (initializeChunks 5 2).length →
           ((initializeChunks 5 2).get ⟨i, h⟩).Size = 2) ∧
         ((initializeChunks 5 2).get ⟨i, h⟩).Size ≤ 2 ∧
         1 ≤ ((initializeChunks 5 2).get ⟨i, h⟩).Size ∧
         ((initializeChunks 5 2).get ⟨i, h⟩).Downloaded = 0 ∧
         ((initializeChunks 5 2).get ⟨i, h⟩).Completed = false)) :=
  ⟨by decide, by decide, initializeChunks_plan 5 2 (by decide) (by decide)⟩

/-! ## Sidecar plan loading and validation (C2)

Go strings are embedded as `List Char`; time is embedded as an `Int` count
of seconds (the Go code compares `time.Since(timestamp)` against
`7 * 24 * time.Hour`, which is scale-invariant). -/

/-- Embeds the `progressState` JSON schema (logger.go, `loadProgress` /
`saveProgress`): chunk list, total size, source URL and timestamp. -/
structure ProgressState where
  Chunks : List ChunkInfo
  TotalSize : Int
  URL : List Char
  Timestamp : Int
deriving DecidableEq, Repr

/-- Embeds the validation sequence of `chunkDownloader.loadProgress`
(logger.go) after a successful JSON decode; `none` for `decoded` stands for
a missing progress file or a JSON decode failure, both of which make
`loadProgress` return an error.  Returns true iff `loadProgress` returns
nil (the sidecar chunks are adopted). -/
def loadProgress (decoded : Option ProgressState) (curTotal : Int)
    (curURL : List Char) (now : Int) : Bool :=
  match decoded with
  | none => false
  | some state =>
    if state.Chunks.length = 0 then false
    else if state.TotalSize ≠ curTotal then false
    else if state.URL ≠ curURL then false
    else if now - state.Timestamp > 7 * 24 * 60 * 60 then false
    else true

/-- Embeds the per-chunk loop body of `chunkDownloader.validateChunks`
(logger.go): walks the chunks accumulating the size total, failing on the
first chunk with a bad range or a bad downloaded count. -/
def validateChunksLoop : List ChunkInfo → Int → Option Int
  | [], acc => some acc
  | ch :: rest, acc =>
    if ch.Start < 0 ∨ ch.End < ch.Start then none
    else if ch.Downloaded < 0 ∨ ch.Downloaded > ch.Size then none
    else validateChunksLoop rest (acc + ch.Size)

/-- Embeds `chunkDownloader.validateChunks` (logger.go): true iff it returns
nil (no error). -/
def validateChunks (chunks : List ChunkInfo) (curTotal : Int) : Bool :=
  if chunks.length = 0 then false
  else
    match validateChunksLoop chunks 0 with
    | none => false
    | some total => total = curTotal

/-- The plan-acceptance decision of `chunkDownloader.Download` (logger.go):
a persisted sidecar is resumed from iff `loadProgress` succeeds and
`validateChunks` accepts the loaded chunks. -/
def planResume (decoded : Option ProgressState) (curTotal : Int)
    (curURL : List Char) (now : Int) : Bool :=
  match decoded with
  | none => false
  | some state =>
    loadProgress (some state) curTotal curURL now
      && validateChunks state.Chunks curTotal

/-- Embeds the planning phase of `chunkDownloader.Download` (logger.go):
`loadProgress`, falling back to `initializeChunks` on failure, then
`validateChunks`, reinitializing once more on failure.  Returns the chunk
list the download actually proceeds with. -/
def planChunks (decoded : Option ProgressState) (curTotal curChunkSize : Int)
    (curURL : List Char) (now : Int) : List ChunkInfo :=
  let loaded :=
    match decoded with
    | some state =>
      if loadProgress (some state) curTotal curURL now then state.Chunks
      else initializeChunks curTotal curChunkSize
    | none => initializeChunks curTotal curChunkSize
  if validateChunks loaded curTotal then loaded
  else initializeChunks curTotal curChunkSize

theorem validateChunksLoop_spec (chunks : List ChunkInfo) (acc : Int) :
    validateChunksLoop chunks acc =
      (if ∀ ch ∈ chunks, 0 ≤ ch.Start ∧ ch.Start ≤ ch.End ∧
            0 ≤ ch.Downloaded ∧ ch.Downloaded ≤ ch.Size
       then some (acc + (chunks.map ChunkInfo.Size).sum)
       else none) := by
  induction chunks generalizing acc with
  | nil => simp [validateChunksLoop]
  | cons ch rest ih =>
    by_cases hch : 0 ≤ ch.Start ∧ ch.Start ≤ ch.End ∧
        0 ≤ ch.Downloaded ∧ ch.Downloaded ≤ ch.Size
    · by_cases hrest : ∀ c ∈ rest, 0 ≤ c.Start ∧ c.Start ≤ c.End ∧
          0 ≤ c.Downloaded ∧ c.Downloaded ≤ c.Size
      · rw [if_pos (by rw [List.forall_mem_cons]; exact ⟨hch, hrest⟩)]
        rw [validateChunksLoop, if_neg (by omega), if_neg (by omega), ih]
        rw [if_pos hrest]
        simp only [List.map_cons, List.sum_cons]
        congr 1
        ring
      · rw [if_neg (by rw [List.forall_mem_cons]; tauto)]
        rw [validateChunksLoop, if_neg (by omega), if_neg (by omega), ih]
        rw [if_neg hrest]
    · rw [if_neg (by rw [List.forall_mem_cons]; tauto)]
      rw [validateChunksLoop]
      rcases not_and_or.mp hch with h1 | h23
      · rw [if_pos (by omega)]
      · rcases not_and_or.mp h23 with h2 | h34
        · rw [if_pos (by omega)]
        · by_cases hr : ch.Start < 0 ∨ ch.End < ch.Start
          · rw [if_pos hr]
          · rw [if_neg hr, if_pos (by omega)]

theorem loadProgress_some_iff (state : ProgressState) (curTotal : Int)
    (curURL : List Char) (now : Int) :
    loadProgress (some state) curTotal curURL now = true ↔
      (state.Chunks ≠ [] ∧ state.TotalSize = curTotal ∧ state.URL = curURL ∧
        now - state.Timestamp ≤ 7 * 24 * 60 * 60) := by
  simp only [loadProgress]
  split_ifs with h1 h2 h3 h4
  · rw [List.length_eq_zero] at h1
    simp [h1]
  · simp [h2]
  · simp [h3]
  · simp only [Bool.false_eq_true, false_iff]
    rintro ⟨-, -, -, hle⟩
    omega
  · simp only [true_iff]
    refine ⟨?_, not_not.mp h2, not_not.mp h3, by omega⟩
    intro he
    exact h1 (by rw [he]; rfl)

theorem validateChunks_iff (chunks : List ChunkInfo) (curTotal : Int) :
    validateChunks chunks curTotal = true ↔
      (chunks ≠ [] ∧
        (∀ ch ∈ chunks, 0 ≤ ch.Start ∧ ch.Start ≤ ch.End ∧
          0 ≤ ch.Downloaded ∧ ch.Downloaded ≤ ch.Size) ∧
        (chunks.map ChunkInfo.Size).sum = curTotal) := by
  simp only [validateChunks, validateChunksLoop_spec]
  split_ifs with h1 h2
  · rw [List.length_eq_zero] at h1
    simp [h1]
  · simp only [decide_eq_true_eq, zero_add]
    constructor
    · intro hsum
      refine ⟨?_, h2, hsum⟩
      intro he
      exact h1 (by rw [he]; rfl)
    · exact fun h => h.2.2
  · simp only [Bool.false_eq_true, false_iff]
    rintro ⟨-, hinv, -⟩
    exact h2 hinv

/-- C2: A persisted sidecar plan is accepted for resume iff all of: it
decodes, its chunk list is non-empty, its recorded total size and URL match
the current download, its timestamp is within 7 days of now, every chunk
has `0 ≤ Start`, `Start ≤ End`, `0 ≤ Downloaded ≤ Size`, and the chunk
sizes sum to the total; otherwise the download proceeds with a freshly
built plan instead of failing. -/
theorem planResume_iff (decoded : Option ProgressState) (curTotal curChunkSize : Int)
    (curURL : List Char) (now : Int) :
    (planResume decoded curTotal curURL now = true ↔
      ∃ state, decoded = some state ∧
        state.Chunks ≠ [] ∧
        state.TotalSize = curTotal ∧
        state.URL = curURL ∧
        now - state.Timestamp ≤ 7 * 24 * 60 * 60 ∧
        (∀ ch ∈ state.Chunks, 0 ≤ ch.Start ∧ ch.Start ≤ ch.End ∧
          0 ≤ ch.Downloaded ∧ ch.Downloaded ≤ ch.Size) ∧
        (state.Chunks.map ChunkInfo.Size).sum = curTotal) ∧
    (planResume decoded curTotal curURL now = false →
      planChunks decoded curTotal curChunkSize curURL now =
        initializeChunks curTotal curChunkSize) ∧
    (∀ state, decoded = some state →
      planResume decoded curTotal curURL now = true →
      planChunks decoded curTotal curChunkSize curURL now = state.Chunks) := by
  cases decoded with
  | none =>
    refine ⟨by simp [planResume], ?_, ?_⟩
    · intro _
      simp only [planChunks]
      split_ifs <;> rfl
    · intro state hd
      exact absurd hd (by simp)
  | some state =>
    refine ⟨?_, ?_, ?_⟩
    · rw [show planResume (some state) curTotal curURL now =
            (loadProgress (some state) curTotal curURL now
              && validateChunks state.Chunks curTotal) from rfl]
      rw [Bool.and_eq_true]
      constructor
      · rintro ⟨hload, hvalid⟩
        rw [loadProgress_some_iff] at hload
        rw [validateChunks_iff] at hvalid
        exact ⟨state, rfl, hload.1, hload.2.1, hload.2.2.1, hload.2.2.2,
          hvalid.2.1, hvalid.2.2⟩
      · rintro ⟨state', hst', hne, hts, hurl, htime, hinv, hsum⟩
        injection hst' with hst'
        subst hst'
        refine ⟨(loadProgress_some_iff _ _ _ _).mpr ⟨hne, hts, hurl, htime⟩,
          (validateChunks_iff _ _).mpr ⟨hne, hinv, hsum⟩⟩
    · intro hres
      rw [show planResume (some state) curTotal curURL now =
            (loadProgress (some state) curTotal curURL now
              && validateChunks state.Chunks curTotal) from rfl] at hres
      simp only [planChunks]
      by_cases hload : loadProgress (some state) curTotal curURL now = true
      · rw [if_pos hload]
        rw [hload, Bool.true_and] at hres
        rw [hres]
        simp
      · rw [if_neg hload]
        split_ifs <;> rfl
    · intro state' hd hres
      injection hd with hd
      subst hd
      rw [show planResume (some state) curTotal curURL now =
            (loadProgress (some state) curTotal curURL now
              && validateChunks state.Chunks curTotal) from rfl,
          Bool.and_eq_true] at hres
      obtain ⟨hload, hvalid⟩ := hres
      simp only [planChunks]
      rw [if_pos hload, if_pos hvalid]

/-- Witness for C2: a matching, in-date, internally consistent sidecar for a
10-byte download is resumed from. -/
theorem planResume_iff_witness :
    planChunks (some ⟨[⟨0, 0, 9, 10, 4, false, 0⟩], 10, ['u'], 100⟩)
        10 4 ['u'] 200 = [⟨0, 0, 9, 10, 4, false, 0⟩] :=
  (planResume_iff (some ⟨[⟨0, 0, 9, 10, 4, false, 0⟩], 10, ['u'], 100⟩)
      10 4 ['u'] 200).2.2 _ rfl (by decide)

/-! ## Per-chunk download state update (C3)

`downloadChunkDirect` (logger.go) reads the accepted response body in
buffers; the body is embedded as the list of per-read byte counts.  Write
and read errors abort the Go function early and are outside the claim
(which quantifies over bodies the server delivers); the embedding covers
every run that reaches EOF. -/

/-- Embeds `chunkDownloader.downloadChunkDirect` (logger.go) as a state
update on the chunk: if the range start is already past `End` the chunk is
marked completed with `Downloaded = Size`; otherwise every body byte is
written and counted into `Downloaded`, and at EOF `Completed` is set to
`Downloaded ≥ Size`. -/
def downloadChunkDirect (ch : ChunkInfo) (body : List Nat) : ChunkInfo :=
  if ch.Start + ch.Downloaded > ch.End then
    { ch with Completed := true, Downloaded := ch.Size }
  else
    let dl := ch.Downloaded + ((body.map (fun (n : Nat) => (n : Int))).sum)
    { ch with Downloaded := dl, Completed := dl ≥ ch.Size }

/-- C3 counterexample: chunk 0 of the fresh plan for a 10-byte download with
chunk size 10, after a partial 4-byte resume, receives a 200 response that
re-delivers the whole 10-byte resource; the chunk ends `Completed` with
`Downloaded = 14 ≠ 10 = Size`, refuting both `Completed ⇔ Downloaded = Size`
and `Downloaded ≤ Size`. -/
theorem downloadChunkDirect_overrun :
    (initializeChunks 10 10 = [⟨0, 0, 9, 10, 0, false, 0⟩]) ∧
    (downloadChunkDirect ⟨0, 0, 9, 10, 4, false, 0⟩ [10]).Completed = true ∧
    (downloadChunkDirect ⟨0, 0, 9, 10, 4, false, 0⟩ [10]).Downloaded = 14 ∧
    (downloadChunkDirect ⟨0, 0, 9, 10, 4, false, 0⟩ [10]).Size = 10 := by
  refine ⟨?_, ?_, ?_, ?_⟩ <;> decide

/-- C3 amended: provided the delivered body is no longer than the requested
range (`Size - Downloaded` bytes, i.e. the server honors the range), the
chunk state after `downloadChunkDirect` satisfies
`Completed ⇔ Downloaded = Size`, `Downloaded ≤ Size`, and `Downloaded`
never decreases. -/
theorem downloadChunkDirect_inv (ch : ChunkInfo) (body : List Nat)
    (hsz : ch.Size = ch.End - ch.Start + 1)
    (hbody : ((body.map (fun (n : Nat) => (n : Int))).sum) ≤ ch.Size - ch.Downloaded) :
    ((downloadChunkDirect ch body).Completed = true ↔
      (downloadChunkDirect ch body).Downloaded = (downloadChunkDirect ch body).Size) ∧
    (downloadChunkDirect ch body).Downloaded ≤ (downloadChunkDirect ch body).Size ∧
    ch.Downloaded ≤ (downloadChunkDirect ch body).Downloaded := by
  have hsum : 0 ≤ ((body.map (fun (n : Nat) => (n : Int))).sum) := by
    apply List.sum_nonneg
    intro x hx
    simp only [List.mem_map] at hx
    obtain ⟨n, -, rfl⟩ := hx
    exact Int.ofNat_nonneg n
  rw [downloadChunkDirect]
  split_ifs with hpast
  · simp only [ge_iff_le]
    refine ⟨by simp, le_refl _, by omega⟩
  · simp only [ge_iff_le, decide_eq_true_eq]
    exact ⟨⟨fun hcomp => by omega, fun heq => by omega⟩, by omega, by omega⟩

/-- Witness for C3 amended: the same resumed chunk receiving exactly the
6 requested bytes (in two reads) ends completed with `Downloaded = Size`. -/
theorem downloadChunkDirect_inv_witness :
    ((⟨0, 0, 9, 10, 4, false, 0⟩ : ChunkInfo).Size =
        (⟨0, 0, 9, 10, 4, false, 0⟩ : ChunkInfo).End
          - (⟨0, 0, 9, 10, 4, false, 0⟩ : ChunkInfo).Start + 1) ∧
    (((downloadChunkDirect ⟨0, 0, 9, 10, 4, false, 0⟩ [2, 4]).Completed = true ↔
      (downloadChunkDirect ⟨0, 0, 9, 10, 4, false, 0⟩ [2, 4]).Downloaded =
        (downloadChunkDirect ⟨0, 0, 9, 10, 4, false, 0⟩ [2, 4]).Size) ∧
     (downloadChunkDirect ⟨0, 0, 9, 10, 4, false, 0⟩ [2, 4]).Downloaded ≤
       (downloadChunkDirect ⟨0, 0, 9, 10, 4, false, 0⟩ [2, 4]).Size ∧
     (⟨0, 0, 9, 10, 4, false, 0⟩ : ChunkInfo).Downloaded ≤
       (downloadChunkDirect ⟨0, 0, 9, 10, 4, false, 0⟩ [2, 4]).Downloaded) :=
  ⟨by decide,
   downloadChunkDirect_inv ⟨0, 0, 9, 10, 4, false, 0⟩ [2, 4]
     (by decide) (by decide)⟩

/-! ## Range probe and engine dispatch (C4)

HTTP header values are embedded as `List Char` (Go returns the empty string
for a missing header); lowering is ASCII `Char.toLower`, which agrees with
Go `strings.ToLower` on the ASCII header values compared here. -/

/-- Digit-run value, the accumulator loop of a base-10 integer parse. -/
def digitsVal (s : List Char) : Nat :=
  s.foldl (fun acc c => acc * 10 + (c.toNat - 48)) 0

/-- Models `strconv.ParseInt(s, 10, 64)` (success cases): an optional sign
followed by at least one digit; 64-bit overflow is not modelled (no value in
these claims approaches it). -/
def parseGoInt (s : List Char) : Option Int :=
  match s with
  | [] => none
  | '+' :: rest =>
    if rest ≠ [] ∧ rest.all Char.isDigit then some ((digitsVal rest : Nat) : Int) else none
  | '-' :: rest =>
    if rest ≠ [] ∧ rest.all Char.isDigit then some (-((digitsVal rest : Nat) : Int)) else none
  | _ =>
    if s.all Char.isDigit then some ((digitsVal s : Nat) : Int) else none

/-- The two headers `checkRangeSupport` (downloader.go) reads from the HEAD
response. -/
structure HeadResponse where
  acceptRanges : List Char
  contentLength : List Char
deriving DecidableEq, Repr

/-- The `totalSize` computed by `checkRangeSupport` (downloader.go): the
parsed Content-Length when the header is non-empty and parses, else 0. -/
def headTotalSize (h : HeadResponse) : Int :=
  if h.contentLength ≠ [] then
    match parseGoInt h.contentLength with
    | some size => size
    | none => 0
  else 0

/-- Embeds `Downloader.checkRangeSupport` (downloader.go).  `headResp` is
the HEAD probe (`none` = request error); `rangeStatus` is the status of the
follow-up HEAD with `Range: bytes=0-1023` (`none` = request error).
Returns (range supported, total size). -/
def checkRangeSupport (headResp : Option HeadResponse)
    (rangeStatus : Option Nat) : Bool × Int :=
  match headResp with
  | none => (false, 0)
  | some h =>
    let acceptsRanges : Bool := h.acceptRanges.map Char.toLower = "bytes".toList
    let totalSize := headTotalSize h
    if acceptsRanges ∧ totalSize > 0 then
      match rangeStatus with
      | none => (false, totalSize)
      | some st =>
        if st = 206 then (true, totalSize)
        else if st = 200 then (false, totalSize)
        else (false, totalSize)
    else (false, totalSize)

/-- The three engines `downloadStream` can hand a stream to. -/
inductive EngineChoice
  | hlsEngine
  | chunked
  | singleThread
deriving DecidableEq, Repr

/-- Embeds the dispatch of `Downloader.downloadStream` (downloader.go):
HLS streams go to the M3U8 path; otherwise, when `ChunkSize > 0`, the probe
runs and the chunk engine is used iff it reports support and
`size > ChunkSize` (and `size > 0`); everything else is single-threaded.
`threads` is in scope in the Go code (`option.Threads`) but never read by
the dispatch. -/
def downloadStreamDispatch (isHls : Bool) (chunkSize threads : Int)
    (headResp : Option HeadResponse) (rangeStatus : Option Nat) : EngineChoice :=
  if isHls then .hlsEngine
  else if chunkSize > 0 then
    let res := checkRangeSupport headResp rangeStatus
    if res.1 ∧ res.2 > chunkSize ∧ res.2 > 0 then .chunked
    else .singleThread
  else .singleThread

/-- C4 counterexample: with `threads = 1` (the claim requires the
single-stream engine) but a confirmed range probe, `chunk_size = 10` and
total size 100, the code still dispatches to the range-parallel chunk
engine. -/
theorem downloadStreamDispatch_threads_counterexample :
    downloadStreamDispatch false 10 1
        (some ⟨"bytes".toList, "100".toList⟩) (some 206) = .chunked ∧
    ¬((1 : Int) > 1) := by
  constructor
  · decide
  · decide

/-- C4 amended: the chunk engine is chosen exactly when the stream is not
HLS, `chunk_size > 0`, the probe confirms range support and the observed
size exceeds `chunk_size`; the probe confirms support exactly when the HEAD
succeeded with `Accept-Ranges: bytes` (case-insensitive) and a positive
parsed Content-Length and the range HEAD returned 206.  The `threads`
option plays no role, and every other non-HLS case is single-threaded. -/
theorem downloadStreamDispatch_iff (isHls : Bool) (chunkSize threads : Int)
    (headResp : Option HeadResponse) (rangeStatus : Option Nat) :
    (downloadStreamDispatch isHls chunkSize threads headResp rangeStatus = .chunked ↔
      (isHls = false ∧ chunkSize > 0 ∧
        (checkRangeSupport headResp rangeStatus).1 = true ∧
        (checkRangeSupport headResp rangeStatus).2 > chunkSize)) ∧
    ((checkRangeSupport headResp rangeStatus).1 = true ↔
      (∃ h, headResp = some h ∧
        h.acceptRanges.map Char.toLower = "bytes".toList ∧
        headTotalSize h > 0 ∧ rangeStatus = some 206)) ∧
    (∀ threads' : Int,
      downloadStreamDispatch isHls chunkSize threads headResp rangeStatus =
        downloadStreamDispatch isHls chunkSize threads' headResp rangeStatus) ∧
    (isHls = true →
      downloadStreamDispatch isHls chunkSize threads headResp rangeStatus = .hlsEngine) ∧
    (isHls = false →
      downloadStreamDispatch isHls chunkSize threads headResp rangeStatus = .chunked ∨
      downloadStreamDispatch isHls chunkSize threads headResp rangeStatus = .singleThread) := by
  have hsupp : ((checkRangeSupport headResp rangeStatus).1 = true ↔
      (∃ h, headResp = some h ∧
        h.acceptRanges.map Char.toLower = "bytes".toList ∧
        headTotalSize h > 0 ∧ rangeStatus = some 206)) := by
    cases headResp with
    | none => simp [checkRangeSupport]
    | some h =>
      cases rangeStatus with
      | none =>
        simp only [checkRangeSupport]
        split_ifs <;> simp
      | some st =>
        simp only [checkRangeSupport]
        split_ifs with hac h206 h200
        · subst h206
          simp only [true_iff]
          exact ⟨h, by trivial, by simpa using hac.1, hac.2, by trivial⟩
        · subst h200
          constructor
          · intro hcontra
            exact absurd hcontra (by simp)
          · rintro ⟨h', -, -, -, hst⟩
            injection hst with hst
            exact absurd hst h206
        · constructor
          · intro hcontra
            exact absurd hcontra (by simp)
          · rintro ⟨h', -, -, -, hst⟩
            injection hst with hst
            exact absurd hst h206
        · constructor
          · intro hcontra
            exact absurd hcontra (by simp)
          · rintro ⟨h', hh', hlow, hpos, -⟩
            injection hh' with hh'
            subst hh'
            exact absurd ⟨by simpa using hlow, hpos⟩ hac
  refine ⟨?_, hsupp, fun _ => rfl, ?_, ?_⟩
  · simp only [downloadStreamDispatch]
    by_cases hhls : isHls
    · subst hhls
      simp
    · rw [Bool.not_eq_true] at hhls
      subst hhls
      rw [if_neg (by simp)]
      by_cases hcs : chunkSize > 0
      · rw [if_pos hcs]
        by_cases hcond : (checkRangeSupport headResp rangeStatus).1 = true ∧
            (checkRangeSupport headResp rangeStatus).2 > chunkSize ∧
            (checkRangeSupport headResp rangeStatus).2 > 0
        · rw [if_pos hcond]
          constructor
          · intro _
            exact ⟨rfl, hcs, hcond.1, hcond.2.1⟩
          · intro _
            rfl
        · rw [if_neg hcond]
          constructor
          · intro hcontra
            exact absurd hcontra (by simp)
          · rintro ⟨-, -, hsup, hsz⟩
            exact absurd ⟨hsup, hsz, by omega⟩ hcond
      · rw [if_neg hcs]
        constructor
        · intro hcontra
          exact absurd hcontra (by simp)
        · rintro ⟨-, hcs', -, -⟩
          exact absurd hcs' hcs
  · intro hhls
    subst hhls
    simp [downloadStreamDispatch]
  · intro hhls
    subst hhls
    simp only [downloadStreamDispatch]
    rw [if_neg (by simp)]
    split_ifs <;> simp

/-- Witness for C4 amended: an HLS stream goes to the HLS engine. -/
theorem downloadStreamDispatch_iff_witness :
    downloadStreamDispatch true 10 4 none none = .hlsEngine :=
  (downloadStreamDispatch_iff true 10 4 none none).2.2.2.1 rfl

/-! ## Per-stream retry loop (C5)

`downloadStreamWithRetry` (downloader.go) is embedded as a fuel-indexed
recursion over attempt indices.  The network is an oracle: `attemptResult n`
is the error text (`none` = success) of the n-th `downloadStream` call,
`recoveryResult n` that of the no-range recovery run after attempt n, and
`cancelledAt n` whether cancellation is observed at the top of iteration n.
The trace records backoff sleeps (in seconds), attempts and recovery runs. -/

/-- Embeds `isNonRetryableError` (downloader.go): lowercases the error text
and looks for any of the terminal substrings; a nil error is retryable. -/
def isNonRetryableError (err : Option (List Char)) : Bool :=
  match err with
  | none => false
  | some e =>
    let errStr := e.map Char.toLower
    ["404".toList, "401".toList, "403".toList, "410".toList,
     "invalid url".toList, "no such host".toList, "malformed".toList,
     "context canceled".toList, "context deadline exceeded".toList].any
      (fun pat => decide (pat <:+: errStr))

/-- The network/cancellation oracle for one stream's retry loop. -/
structure RetryOracle where
  attemptResult : Nat → Option (List Char)
  recoveryResult : Nat → Option (List Char)
  cancelledAt : Nat → Bool

/-- Observable events of the retry loop, in order. -/
inductive RetryEvent
  | sleep (secs : Nat)
  | attempt (n : Nat)
  | recovery (n : Nat)
deriving DecidableEq, Repr

/-- Result of the retry loop: success, observed cancellation, or the last
error (which Go wraps in a final message). -/
inductive RetryOutcome
  | ok
  | cancelled
  | failed (e : List Char)
deriving DecidableEq, Repr

/-- The backoff events of iteration n: Go sleeps `min(n², 30)` seconds
before every attempt but the first. -/
def backoffEvents (n : Nat) : List RetryEvent :=
  if n > 0 then [.sleep (min (n * n) 30)] else []

/-- Embeds the loop body of `downloadStreamWithRetry` (downloader.go).
`fuel` is the number of attempts left (`maxRetries - n`), `n` the zero-based
attempt index, `lastErr` the accumulated last error.  Each iteration:
observe cancellation; sleep `min(n², 30)` seconds when `n > 0`; run the
attempt; on a 416-containing error run the no-range recovery once; stop on
success, cancellation, a non-retryable error, or exhausted fuel. -/
def downloadStreamWithRetryAux (o : RetryOracle) :
    Nat → Nat → List Char → RetryOutcome × List RetryEvent
  | 0, _, lastErr => (.failed lastErr, [])
  | fuel + 1, n, lastErr =>
    if o.cancelledAt n then (.cancelled, [])
    else
      match o.attemptResult n with
      | none => (.ok, backoffEvents n ++ [.attempt n])
      | some e =>
        if "416".toList <:+: e then
          match o.recoveryResult n with
          | none => (.ok, backoffEvents n ++ [.attempt n, .recovery n])
          | some e2 =>
            if isNonRetryableError (some e2) then
              (.failed e2, backoffEvents n ++ [.attempt n, .recovery n])
            else
              let r := downloadStreamWithRetryAux o fuel (n + 1) e2
              (r.1, backoffEvents n ++ [.attempt n, .recovery n] ++ r.2)
        else
          if isNonRetryableError (some e) then
            (.failed e, backoffEvents n ++ [.attempt n])
          else
            let r := downloadStreamWithRetryAux o fuel (n + 1) e
            (r.1, backoffEvents n ++ [.attempt n] ++ r.2)

/-- Embeds `downloadStreamWithRetry` (downloader.go): the attempt budget is
`RetryCount`, clamped up to 1 when non-positive. -/
def downloadStreamWithRetry (o : RetryOracle) (retryCount : Int) :
    RetryOutcome × List RetryEvent :=
  let maxRetries : Int := if retryCount ≤ 0 then 1 else retryCount
  downloadStreamWithRetryAux o maxRetries.toNat 0 []

/-- True on `attempt` events; used to count download attempts in a trace. -/
def isAttemptEv : RetryEvent → Bool
  | .attempt _ => true
  | _ => false

theorem countP_backoffEvents (n : Nat) :
    (backoffEvents n).countP isAttemptEv = 0 := by
  rw [backoffEvents]
  split_ifs <;> simp [isAttemptEv]

theorem attempt_not_mem_backoffEvents (n m : Nat) :
    RetryEvent.attempt m ∉ backoffEvents n := by
  rw [backoffEvents]
  split_ifs <;> simp

theorem recovery_not_mem_backoffEvents (n m : Nat) :
    RetryEvent.recovery m ∉ backoffEvents n := by
  rw [backoffEvents]
  split_ifs <;> simp

theorem sleep_mem_backoffEvents (n d : Nat) :
    RetryEvent.sleep d ∈ backoffEvents n → 1 ≤ n ∧ d = min (n * n) 30 := by
  rw [backoffEvents]
  split_ifs with h <;> simp
  · intro hd
    omega

theorem retryAux_attempt_count (o : RetryOracle) (fuel n : Nat) (lastErr : List Char) :
    (downloadStreamWithRetryAux o fuel n lastErr).2.countP isAttemptEv ≤ fuel := by
  induction fuel generalizing n lastErr with
  | zero => simp [downloadStreamWithRetryAux]
  | succ fuel ih =>
    simp only [downloadStreamWithRetryAux]
    split
    · simp
    · split
      · simp [List.countP_append, List.countP_cons, isAttemptEv, countP_backoffEvents]
      · next e ha =>
        split_ifs with h416 hnr
        · split
          · simp [List.countP_append, List.countP_cons, isAttemptEv, countP_backoffEvents]
          · next e2 hrec =>
            split_ifs with hnr2
            · simp [List.countP_append, List.countP_cons, isAttemptEv, countP_backoffEvents]
            · have hih := ih (n + 1) e2
              simp [List.countP_append, List.countP_cons, isAttemptEv, countP_backoffEvents]
              omega
        · simp [List.countP_append, List.countP_cons, isAttemptEv, countP_backoffEvents]
        · have hih := ih (n + 1) e
          simp [List.countP_append, List.countP_cons, isAttemptEv, countP_backoffEvents]
          omega

theorem retryAux_index_ge (o : RetryOracle) (fuel : Nat) :
    ∀ n lastErr m,
      (RetryEvent.attempt m ∈ (downloadStreamWithRetryAux o fuel n lastErr).2 ∨
       RetryEvent.recovery m ∈ (downloadStreamWithRetryAux o fuel n lastErr).2) →
      n ≤ m := by
  induction fuel with
  | zero =>
    intro n lastErr m hm
    simp [downloadStreamWithRetryAux] at hm
  | succ fuel ih =>
    intro n lastErr m hm
    simp only [downloadStreamWithRetryAux] at hm
    split at hm
    · simp at hm
    · split at hm
      · simp [attempt_not_mem_backoffEvents, recovery_not_mem_backoffEvents] at hm
        omega
      · next e ha =>
        split_ifs at hm with h416 hnr
        · split at hm
          · simp [attempt_not_mem_backoffEvents, recovery_not_mem_backoffEvents] at hm
            rcases hm with h | h <;> omega
          · next e2 hrec =>
            split_ifs at hm with hnr2
            · simp [attempt_not_mem_backoffEvents, recovery_not_mem_backoffEvents] at hm
              rcases hm with h | h <;> omega
            · simp [attempt_not_mem_backoffEvents, recovery_not_mem_backoffEvents] at hm
              rcases hm with (h | h) | (h | h)
              · omega
              · have := ih (n + 1) e2 m (Or.inl h)
                omega
              · omega
              · have := ih (n + 1) e2 m (Or.inr h)
                omega
        · simp [attempt_not_mem_backoffEvents, recovery_not_mem_backoffEvents] at hm
          omega
        · simp [attempt_not_mem_backoffEvents, recovery_not_mem_backoffEvents] at hm
          rcases hm with (h | h) | h
          · omega
          · have := ih (n + 1) e m (Or.inl h)
            omega
          · have := ih (n + 1) e m (Or.inr h)
            omega

theorem retryAux_sleep (o : RetryOracle) (fuel : Nat) :
    ∀ n lastErr d,
      RetryEvent.sleep d ∈ (downloadStreamWithRetryAux o fuel n lastErr).2 →
      ∃ m, 1 ≤ m ∧ d = min (m * m) 30 ∧
        RetryEvent.attempt m ∈ (downloadStreamWithRetryAux o fuel n lastErr).2 := by
  induction fuel with
  | zero =>
    intro n lastErr d hd
    simp [downloadStreamWithRetryAux] at hd
  | succ fuel ih =>
    intro n lastErr d hd
    cases hc : o.cancelledAt n with
    | true => simp [downloadStreamWithRetryAux, hc] at hd
    | false =>
      cases ha : o.attemptResult n with
      | none =>
        simp only [downloadStreamWithRetryAux, hc, ha, Bool.false_eq_true,
          if_false] at hd ⊢
        simp only [List.mem_append] at hd
        rcases hd with hd | hd
        · obtain ⟨h1, h2⟩ := sleep_mem_backoffEvents n d hd
          exact ⟨n, h1, h2, by simp [List.mem_append]⟩
        · simp at hd
      | some e =>
        by_cases h416 : "416".toList <:+: e
        · cases hrec : o.recoveryResult n with
          | none =>
            simp only [downloadStreamWithRetryAux, hc, ha, hrec, h416,
              Bool.false_eq_true, if_false, if_true] at hd ⊢
            simp only [List.mem_append] at hd
            rcases hd with hd | hd
            · obtain ⟨h1, h2⟩ := sleep_mem_backoffEvents n d hd
              exact ⟨n, h1, h2, by simp [List.mem_append]⟩
            · simp at hd
          | some e2 =>
            by_cases hnr2 : isNonRetryableError (some e2) = true
            · simp only [downloadStreamWithRetryAux, hc, ha, hrec, h416, hnr2,
                Bool.false_eq_true, if_false, if_true] at hd ⊢
              simp only [List.mem_append] at hd
              rcases hd with hd | hd
              · obtain ⟨h1, h2⟩ := sleep_mem_backoffEvents n d hd
                exact ⟨n, h1, h2, by simp [List.mem_append]⟩
              · simp at hd
            · rw [Bool.not_eq_true] at hnr2
              simp only [downloadStreamWithRetryAux, hc, ha, hrec, h416, hnr2,
                Bool.false_eq_true, if_false, if_true] at hd ⊢
              simp only [List.mem_append] at hd
              rcases hd with (hd | hd) | hd
              · obtain ⟨h1, h2⟩ := sleep_mem_backoffEvents n d hd
                exact ⟨n, h1, h2, by simp [List.mem_append]⟩
              · simp at hd
              · obtain ⟨m, h1, h2, h3⟩ := ih (n + 1) e2 d hd
                exact ⟨m, h1, h2, by simp only [List.mem_append]; right; exact h3⟩
        · by_cases hnr : isNonRetryableError (some e) = true
          · simp only [downloadStreamWithRetryAux, hc, ha, h416, hnr,
              Bool.false_eq_true, if_false, if_true] at hd ⊢
            simp only [List.mem_append] at hd
            rcases hd with hd | hd
            · obtain ⟨h1, h2⟩ := sleep_mem_backoffEvents n d hd
              exact ⟨n, h1, h2, by simp [List.mem_append]⟩
            · simp at hd
          · rw [Bool.not_eq_true] at hnr
            simp only [downloadStreamWithRetryAux, hc, ha, h416, hnr,
              Bool.false_eq_true, if_false, if_true] at hd ⊢
            simp only [List.mem_append] at hd
            rcases hd with (hd | hd) | hd
            · obtain ⟨h1, h2⟩ := sleep_mem_backoffEvents n d hd
              exact ⟨n, h1, h2, by simp [List.mem_append]⟩
            · simp at hd
            · obtain ⟨m, h1, h2, h3⟩ := ih (n + 1) e d hd
              exact ⟨m, h1, h2, by simp only [List.mem_append]; right; exact h3⟩

theorem retryAux_recovery_src (o : RetryOracle) (fuel : Nat) :
    ∀ n lastErr m,
      RetryEvent.recovery m ∈ (downloadStreamWithRetryAux o fuel n lastErr).2 →
      ∃ e, o.attemptResult m = some e ∧ "416".toList <:+: e := by
  induction fuel with
  | zero =>
    intro n lastErr m hm
    simp [downloadStreamWithRetryAux] at hm
  | succ fuel ih =>
    intro n lastErr m hm
    cases hc : o.cancelledAt n with
    | true => simp [downloadStreamWithRetryAux, hc] at hm
    | false =>
      cases ha : o.attemptResult n with
      | none =>
        simp only [downloadStreamWithRetryAux, hc, ha, Bool.false_eq_true,
          if_false] at hm
        simp only [List.mem_append, List.mem_cons, List.not_mem_nil,
          or_false] at hm
        rcases hm with hm | hm
        · exact absurd hm (recovery_not_mem_backoffEvents n m)
        · exact absurd hm (by simp)
      | some e =>
        by_cases h416 : "416".toList <:+: e
        · cases hrec : o.recoveryResult n with
          | none =>
            simp only [downloadStreamWithRetryAux, hc, ha, hrec, h416,
              Bool.false_eq_true, if_false, if_true] at hm
            simp only [List.mem_append, List.mem_cons, List.not_mem_nil,
              or_false] at hm
            rcases hm with hm | hm | hm
            · exact absurd hm (recovery_not_mem_backoffEvents n m)
            · exact absurd hm (by simp)
            · injection hm with hm
              subst hm
              exact ⟨e, ha, h416⟩
          | some e2 =>
            by_cases hnr2 : isNonRetryableError (some e2) = true
            · simp only [downloadStreamWithRetryAux, hc, ha, hrec, h416, hnr2,
                Bool.false_eq_true, if_false, if_true] at hm
              simp only [List.mem_append, List.mem_cons, List.not_mem_nil,
                or_false] at hm
              rcases hm with hm | hm | hm
              · exact absurd hm (recovery_not_mem_backoffEvents n m)
              · exact absurd hm (by simp)
              · injection hm with hm
                subst hm
                exact ⟨e, ha, h416⟩
            · rw [Bool.not_eq_true] at hnr2
              simp only [downloadStreamWithRetryAux, hc, ha, hrec, h416, hnr2,
                Bool.false_eq_true, if_false, if_true] at hm
              simp only [List.mem_append, List.mem_cons, List.not_mem_nil,
                or_false] at hm
              rcases hm with (hm | hm | hm) | hm
              · exact absurd hm (recovery_not_mem_backoffEvents n m)
              · exact absurd hm (by simp)
              · injection hm with hm
                subst hm
                exact ⟨e, ha, h416⟩
              · exact ih (n + 1) e2 m hm
        · by_cases hnr : isNonRetryableError (some e) = true
          · simp only [downloadStreamWithRetryAux, hc, ha, h416, hnr,
              Bool.false_eq_true, if_false, if_true] at hm
            simp only [List.mem_append, List.mem_cons, List.not_mem_nil,
              or_false] at hm
            rcases hm with hm | hm
            · exact absurd hm (recovery_not_mem_backoffEvents n m)
            · exact absurd hm (by simp)
          · rw [Bool.not_eq_true] at hnr
            simp only [downloadStreamWithRetryAux, hc, ha, h416, hnr,
              Bool.false_eq_true, if_false, if_true] at hm
            simp only [List.mem_append, List.mem_cons, List.not_mem_nil,
              or_false] at hm
            rcases hm with (hm | hm) | hm
            · exact absurd hm (recovery_not_mem_backoffEvents n m)
            · exact absurd hm (by simp)
            · exact ih (n + 1) e m hm

theorem retryAux_416_recovers (o : RetryOracle) (fuel : Nat) :
    ∀ n lastErr m e₀,
      RetryEvent.attempt m ∈ (downloadStreamWithRetryAux o fuel n lastErr).2 →
      o.attemptResult m = some e₀ → "416".toList <:+: e₀ →
      RetryEvent.recovery m ∈ (downloadStreamWithRetryAux o fuel n lastErr).2 := by
  induction fuel with
  | zero =>
    intro n lastErr m e₀ hm hae h416'
    simp [downloadStreamWithRetryAux] at hm
  | succ fuel ih =>
    intro n lastErr m e₀ hm hae h416'
    cases hc : o.cancelledAt n with
    | true => simp [downloadStreamWithRetryAux, hc] at hm
    | false =>
      cases ha : o.attemptResult n with
      | none =>
        simp only [downloadStreamWithRetryAux, hc, ha, Bool.false_eq_true,
          if_false] at hm
        simp only [List.mem_append, List.mem_cons, List.not_mem_nil,
          or_false] at hm
        rcases hm with hm | hm
        · exact absurd hm (attempt_not_mem_backoffEvents n m)
        · injection hm with hm
          subst hm
          rw [ha] at hae
          cases hae
      | some e =>
        by_cases h416 : "416".toList <:+: e
        · cases hrec : o.recoveryResult n with
          | none =>
            simp only [downloadStreamWithRetryAux, hc, ha, hrec, h416,
              Bool.false_eq_true, if_false, if_true] at hm ⊢
            simp only [List.mem_append, List.mem_cons, List.not_mem_nil,
              or_false] at hm ⊢
            rcases hm with hm | hm | hm
            · exact absurd hm (attempt_not_mem_backoffEvents n m)
            · injection hm with hm
              subst hm
              right; right
              rfl
            · exact absurd hm (by simp)
          | some e2 =>
            by_cases hnr2 : isNonRetryableError (some e2) = true
            · simp only [downloadStreamWithRetryAux, hc, ha, hrec, h416, hnr2,
                Bool.false_eq_true, if_false, if_true] at hm ⊢
              simp only [List.mem_append, List.mem_cons, List.not_mem_nil,
                or_false] at hm ⊢
              rcases hm with hm | hm | hm
              · exact absurd hm (attempt_not_mem_backoffEvents n m)
              · injection hm with hm
                subst hm
                right; right
                rfl
              · exact absurd hm (by simp)
            · rw [Bool.not_eq_true] at hnr2
              simp only [downloadStreamWithRetryAux, hc, ha, hrec, h416, hnr2,
                Bool.false_eq_true, if_false, if_true] at hm ⊢
              simp only [List.mem_append, List.mem_cons, List.not_mem_nil,
                or_false] at hm ⊢
              rcases hm with (hm | hm | hm) | hm
              · exact absurd hm (attempt_not_mem_backoffEvents n m)
              · injection hm with hm
                subst hm
                left; right; right
                rfl
              · exact absurd hm (by simp)
              · right
                exact ih (n + 1) e2 m e₀ hm hae h416'
        · by_cases hnr : isNonRetryableError (some e) = true
          · simp only [downloadStreamWithRetryAux, hc, ha, h416, hnr,
              Bool.false_eq_true, if_false, if_true] at hm
            simp only [List.mem_append, List.mem_cons, List.not_mem_nil,
              or_false] at hm
            rcases hm with hm | hm
            · exact absurd hm (attempt_not_mem_backoffEvents n m)
            · injection hm with hm
              subst hm
              rw [ha] at hae
              injection hae with hae
              subst hae
              exact absurd h416' h416
          · rw [Bool.not_eq_true] at hnr
            simp only [downloadStreamWithRetryAux, hc, ha, h416, hnr,
              Bool.false_eq_true, if_false, if_true] at hm ⊢
            simp only [List.mem_append, List.mem_cons, List.not_mem_nil,
              or_false] at hm ⊢
            rcases hm with (hm | hm) | hm
            · exact absurd hm (attempt_not_mem_backoffEvents n m)
            · injection hm with hm
              subst hm
              rw [ha] at hae
              injection hae with hae
              subst hae
              exact absurd h416' h416
            · right
              exact ih (n + 1) e m e₀ hm hae h416'

theorem retryAux_recovery_ok (o : RetryOracle) (fuel : Nat) :
    ∀ n lastErr m,
      RetryEvent.recovery m ∈ (downloadStreamWithRetryAux o fuel n lastErr).2 →
      o.recoveryResult m = none →
      (downloadStreamWithRetryAux o fuel n lastErr).1 = .ok := by
  induction fuel with
  | zero =>
    intro n lastErr m hm hrn
    simp [downloadStreamWithRetryAux] at hm
  | succ fuel ih =>
    intro n lastErr m hm hrn
    cases hc : o.cancelledAt n with
    | true => simp [downloadStreamWithRetryAux, hc] at hm
    | false =>
      cases ha : o.attemptResult n with
      | none =>
        simp only [downloadStreamWithRetryAux, hc, ha, Bool.false_eq_true,
          if_false] at hm
        simp only [List.mem_append, List.mem_cons, List.not_mem_nil,
          or_false] at hm
        rcases hm with hm | hm
        · exact absurd hm (recovery_not_mem_backoffEvents n m)
        · exact absurd hm (by simp)
      | some e =>
        by_cases h416 : "416".toList <:+: e
        · cases hrec : o.recoveryResult n with
          | none =>
            simp only [downloadStreamWithRetryAux, hc, ha, hrec, h416,
              Bool.false_eq_true, if_false, if_true]
          | some e2 =>
            by_cases hnr2 : isNonRetryableError (some e2) = true
            · simp only [downloadStreamWithRetryAux, hc, ha, hrec, h416, hnr2,
                Bool.false_eq_true, if_false, if_true] at hm
              simp only [List.mem_append, List.mem_cons, List.not_mem_nil,
                or_false] at hm
              rcases hm with hm | hm | hm
              · exact absurd hm (recovery_not_mem_backoffEvents n m)
              · exact absurd hm (by simp)
              · injection hm with hm
                subst hm
                rw [hrec] at hrn
                cases hrn
            · rw [Bool.not_eq_true] at hnr2
              simp only [downloadStreamWithRetryAux, hc, ha, hrec, h416, hnr2,
                Bool.false_eq_true, if_false, if_true] at hm ⊢
              simp only [List.mem_append, List.mem_cons, List.not_mem_nil,
                or_false] at hm
              rcases hm with (hm | hm | hm) | hm
              · exact absurd hm (recovery_not_mem_backoffEvents n m)
              · exact absurd hm (by simp)
              · injection hm with hm
                subst hm
                rw [hrec] at hrn
                cases hrn
              · exact ih (n + 1) e2 m hm hrn
        · by_cases hnr : isNonRetryableError (some e) = true
          · simp only [downloadStreamWithRetryAux, hc, ha, h416, hnr,
              Bool.false_eq_true, if_false, if_true] at hm
            simp only [List.mem_append, List.mem_cons, List.not_mem_nil,
              or_false] at hm
            rcases hm with hm | hm
            · exact absurd hm (recovery_not_mem_backoffEvents n m)
            · exact absurd hm (by simp)
          · rw [Bool.not_eq_true] at hnr
            simp only [downloadStreamWithRetryAux, hc, ha, h416, hnr,
              Bool.false_eq_true, if_false, if_true] at hm ⊢
            simp only [List.mem_append, List.mem_cons, List.not_mem_nil,
              or_false] at hm
            rcases hm with (hm | hm) | hm
            · exact absurd hm (recovery_not_mem_backoffEvents n m)
            · exact absurd hm (by simp)
            · exact ih (n + 1) e m hm hrn

theorem retryAux_terminal (o : RetryOracle) (fuel : Nat) :
    ∀ n lastErr m e₀,
      RetryEvent.attempt m ∈ (downloadStreamWithRetryAux o fuel n lastErr).2 →
      o.attemptResult m = some e₀ → ¬("416".toList <:+: e₀) →
      isNonRetryableError (some e₀) = true →
      (downloadStreamWithRetryAux o fuel n lastErr).1 = .failed e₀ ∧
      RetryEvent.attempt (m + 1) ∉ (downloadStreamWithRetryAux o fuel n lastErr).2 := by
  induction fuel with
  | zero =>
    intro n lastErr m e₀ hm hae h416' hnr'
    simp [downloadStreamWithRetryAux] at hm
  | succ fuel ih =>
    intro n lastErr m e₀ hm hae h416' hnr'
    cases hc : o.cancelledAt n with
    | true => simp [downloadStreamWithRetryAux, hc] at hm
    | false =>
      cases ha : o.attemptResult n with
      | none =>
        simp only [downloadStreamWithRetryAux, hc, ha, Bool.false_eq_true,
          if_false] at hm
        simp only [List.mem_append, List.mem_cons, List.not_mem_nil,
          or_false] at hm
        rcases hm with hm | hm
        · exact absurd hm (attempt_not_mem_backoffEvents n m)
        · injection hm with hm
          subst hm
          rw [ha] at hae
          cases hae
      | some e =>
        by_cases h416 : "416".toList <:+: e
        · cases hrec : o.recoveryResult n with
          | none =>
            simp only [downloadStreamWithRetryAux, hc, ha, hrec, h416,
              Bool.false_eq_true, if_false, if_true] at hm
            simp only [List.mem_append, List.mem_cons, List.not_mem_nil,
              or_false] at hm
            rcases hm with hm | hm | hm
            · exact absurd hm (attempt_not_mem_backoffEvents n m)
            · injection hm with hm
              subst hm
              rw [ha] at hae
              injection hae with hae
              subst hae
              exact absurd h416 h416'
            · exact absurd hm (by simp)
          | some e2 =>
            by_cases hnr2 : isNonRetryableError (some e2) = true
            · simp only [downloadStreamWithRetryAux, hc, ha, hrec, h416, hnr2,
                Bool.false_eq_true, if_false, if_true] at hm
              simp only [List.mem_append, List.mem_cons, List.not_mem_nil,
                or_false] at hm
              rcases hm with hm | hm | hm
              · exact absurd hm (attempt_not_mem_backoffEvents n m)
              · injection hm with hm
                subst hm
                rw [ha] at hae
                injection hae with hae
                subst hae
                exact absurd h416 h416'
              · exact absurd hm (by simp)
            · rw [Bool.not_eq_true] at hnr2
              simp only [downloadStreamWithRetryAux, hc, ha, hrec, h416, hnr2,
                Bool.false_eq_true, if_false, if_true] at hm ⊢
              simp only [List.mem_append, List.mem_cons, List.not_mem_nil,
                or_false] at hm
              rcases hm with (hm | hm | hm) | hm
              · exact absurd hm (attempt_not_mem_backoffEvents n m)
              · injection hm with hm
                subst hm
                rw [ha] at hae
                injection hae with hae
                subst hae
                exact absurd h416 h416'
              · exact absurd hm (by simp)
              · have hge := retryAux_index_ge o fuel (n + 1) e2 m (Or.inl hm)
                obtain ⟨hres, hnotin⟩ := ih (n + 1) e2 m e₀ hm hae h416' hnr'
                refine ⟨hres, ?_⟩
                simp only [List.mem_append, List.mem_cons, List.not_mem_nil,
                  or_false]
                rintro ((hcon | hcon | hcon) | hcon)
                · exact attempt_not_mem_backoffEvents n (m + 1) hcon
                · injection hcon with hcon
                  omega
                · exact absurd hcon (by simp)
                · exact hnotin hcon
        · by_cases hnr : isNonRetryableError (some e) = true
          · simp only [downloadStreamWithRetryAux, hc, ha, h416, hnr,
              Bool.false_eq_true, if_false, if_true] at hm ⊢
            simp only [List.mem_append, List.mem_cons, List.not_mem_nil,
              or_false] at hm
            rcases hm with hm | hm
            · exact absurd hm (attempt_not_mem_backoffEvents n m)
            · injection hm with hm
              subst hm
              rw [ha] at hae
              injection hae with hae
              subst hae
              refine ⟨rfl, ?_⟩
              simp only [List.mem_append, List.mem_cons, List.not_mem_nil,
                or_false]
              rintro (hcon | hcon)
              · exact attempt_not_mem_backoffEvents m (m + 1) hcon
              · injection hcon with hcon
                omega
          · rw [Bool.not_eq_true] at hnr
            simp only [downloadStreamWithRetryAux, hc, ha, h416, hnr,
              Bool.false_eq_true, if_false, if_true] at hm ⊢
            simp only [List.mem_append, List.mem_cons, List.not_mem_nil,
              or_false] at hm
            rcases hm with (hm | hm) | hm
            · exact absurd hm (attempt_not_mem_backoffEvents n m)
            · injection hm with hm
              subst hm
              rw [ha] at hae
              injection hae with hae
              subst hae
              rw [hnr] at hnr'
              cases hnr'
            · have hge := retryAux_index_ge o fuel (n + 1) e m (Or.inl hm)
              obtain ⟨hres, hnotin⟩ := ih (n + 1) e m e₀ hm hae h416' hnr'
              refine ⟨hres, ?_⟩
              simp only [List.mem_append, List.mem_cons, List.not_mem_nil,
                or_false]
              rintro ((hcon | hcon) | hcon)
              · exact attempt_not_mem_backoffEvents n (m + 1) hcon
              · injection hcon with hcon
                omega
              · exact hnotin hcon

theorem retryAux_no_attempt_after_cancel (o : RetryOracle) (fuel : Nat) :
    ∀ n lastErr m,
      RetryEvent.attempt m ∈ (downloadStreamWithRetryAux o fuel n lastErr).2 →
      o.cancelledAt m = false := by
  induction fuel with
  | zero =>
    intro n lastErr m hm
    simp [downloadStreamWithRetryAux] at hm
  | succ fuel ih =>
    intro n lastErr m hm
    cases hc : o.cancelledAt n with
    | true => simp [downloadStreamWithRetryAux, hc] at hm
    | false =>
      cases ha : o.attemptResult n with
      | none =>
        simp only [downloadStreamWithRetryAux, hc, ha, Bool.false_eq_true,
          if_false] at hm
        simp only [List.mem_append, List.mem_cons, List.not_mem_nil,
          or_false] at hm
        rcases hm with hm | hm
        · exact absurd hm (attempt_not_mem_backoffEvents n m)
        · injection hm with hm
          subst hm
          exact hc
      | some e =>
        by_cases h416 : "416".toList <:+: e
        · cases hrec : o.recoveryResult n with
          | none =>
            simp only [downloadStreamWithRetryAux, hc, ha, hrec, h416,
              Bool.false_eq_true, if_false, if_true] at hm
            simp only [List.mem_append, List.mem_cons, List.not_mem_nil,
              or_false] at hm
            rcases hm with hm | hm | hm
            · exact absurd hm (attempt_not_mem_backoffEvents n m)
            · injection hm with hm
              subst hm
              exact hc
            · exact absurd hm (by simp)
          | some e2 =>
            by_cases hnr2 : isNonRetryableError (some e2) = true
            · simp only [downloadStreamWithRetryAux, hc, ha, hrec, h416, hnr2,
                Bool.false_eq_true, if_false, if_true] at hm
              simp only [List.mem_append, List.mem_cons, List.not_mem_nil,
                or_false] at hm
              rcases hm with hm | hm | hm
              · exact absurd hm (attempt_not_mem_backoffEvents n m)
              · injection hm with hm
                subst hm
                exact hc
              · exact absurd hm (by simp)
            · rw [Bool.not_eq_true] at hnr2
              simp only [downloadStreamWithRetryAux, hc, ha, hrec, h416, hnr2,
                Bool.false_eq_true, if_false, if_true] at hm
              simp only [List.mem_append, List.mem_cons, List.not_mem_nil,
                or_false] at hm
              rcases hm with (hm | hm | hm) | hm
              · exact absurd hm (attempt_not_mem_backoffEvents n m)
              · injection hm with hm
                subst hm
                exact hc
              · exact absurd hm (by simp)
              · exact ih (n + 1) e2 m hm
        · by_cases hnr : isNonRetryableError (some e) = true
          · simp only [downloadStreamWithRetryAux, hc, ha, h416, hnr,
              Bool.false_eq_true, if_false, if_true] at hm
            simp only [List.mem_append, List.mem_cons, List.not_mem_nil,
              or_false] at hm
            rcases hm with hm | hm
            · exact absurd hm (attempt_not_mem_backoffEvents n m)
            · injection hm with hm
              subst hm
              exact hc
          · rw [Bool.not_eq_true] at hnr
            simp only [downloadStreamWithRetryAux, hc, ha, h416, hnr,
              Bool.false_eq_true, if_false, if_true] at hm
            simp only [List.mem_append, List.mem_cons, List.not_mem_nil,
              or_false] at hm
            rcases hm with (hm | hm) | hm
            · exact absurd hm (attempt_not_mem_backoffEvents n m)
            · injection hm with hm
              subst hm
              exact hc
            · exact ih (n + 1) e m hm

/-- C5: The per-stream retry loop makes at most `max(retry_count, 1)`
attempts; every backoff sleep in a run lasts `min(n², 30)` seconds for the
attempt `n ≥ 1` it precedes; a no-range recovery run happens exactly after
an attempt whose error text contains "416", and a successful recovery makes
the whole loop succeed; an attempt failing with a non-416 terminal error
(401/403/404/410, invalid url, no such host, malformed, cancellation text)
ends the loop with that error and is never followed by another attempt; and
no attempt is started at an iteration where cancellation was observed —
cancellation observed at entry returns the cancellation outcome at once. -/
theorem downloadStreamWithRetry_spec (o : RetryOracle) (retryCount : Int) :
    (((downloadStreamWithRetry o retryCount).2.countP isAttemptEv : Int)
        ≤ max retryCount 1) ∧
    (∀ d, RetryEvent.sleep d ∈ (downloadStreamWithRetry o retryCount).2 →
      ∃ m, 1 ≤ m ∧ d = min (m * m) 30 ∧
        RetryEvent.attempt m ∈ (downloadStreamWithRetry o retryCount).2) ∧
    (∀ m, RetryEvent.recovery m ∈ (downloadStreamWithRetry o retryCount).2 →
      ∃ e, o.attemptResult m = some e ∧ "416".toList <:+: e) ∧
    (∀ m e₀, RetryEvent.attempt m ∈ (downloadStreamWithRetry o retryCount).2 →
      o.attemptResult m = some e₀ → "416".toList <:+: e₀ →
      RetryEvent.recovery m ∈ (downloadStreamWithRetry o retryCount).2) ∧
    (∀ m, RetryEvent.recovery m ∈ (downloadStreamWithRetry o retryCount).2 →
      o.recoveryResult m = none →
      (downloadStreamWithRetry o retryCount).1 = .ok) ∧
    (∀ m e₀, RetryEvent.attempt m ∈ (downloadStreamWithRetry o retryCount).2 →
      o.attemptResult m = some e₀ → ¬("416".toList <:+: e₀) →
      isNonRetryableError (some e₀) = true →
      (downloadStreamWithRetry o retryCount).1 = .failed e₀ ∧
      RetryEvent.attempt (m + 1) ∉ (downloadStreamWithRetry o retryCount).2) ∧
    (∀ m, RetryEvent.attempt m ∈ (downloadStreamWithRetry o retryCount).2 →
      o.cancelledAt m = false) ∧
    (o.cancelledAt 0 = true →
      downloadStreamWithRetry o retryCount = (.cancelled, [])) := by
  rw [show downloadStreamWithRetry o retryCount =
        downloadStreamWithRetryAux o
          ((if retryCount ≤ 0 then 1 else retryCount).toNat) 0 [] from rfl]
  refine ⟨?_, ?_, ?_, ?_, ?_, ?_, ?_, ?_⟩
  · have h := retryAux_attempt_count o
      ((if retryCount ≤ 0 then 1 else retryCount).toNat) 0 []
    have hcast : (((if retryCount ≤ 0 then 1 else retryCount).toNat : Nat) : Int)
        = max retryCount 1 := by
      split_ifs <;> omega
    omega
  · exact retryAux_sleep o _ 0 []
  · exact retryAux_recovery_src o _ 0 []
  · exact retryAux_416_recovers o _ 0 []
  · exact retryAux_recovery_ok o _ 0 []
  · exact retryAux_terminal o _ 0 []
  · exact retryAux_no_attempt_after_cancel o _ 0 []
  · intro hcancel
    have hone : (if retryCount ≤ 0 then 1 else retryCount).toNat =
        ((if retryCount ≤ 0 then 1 else retryCount).toNat - 1) + 1 := by
      split_ifs <;> omega
    rw [hone]
    simp [downloadStreamWithRetryAux, hcancel]

/-- Witness for C5 at an oracle that observes cancellation immediately:
the loop returns the cancellation outcome with no attempts. -/
theorem downloadStreamWithRetry_spec_witness :
    downloadStreamWithRetry
        ⟨fun _ => none, fun _ => none, fun _ => true⟩ 3 = (.cancelled, []) :=
  (downloadStreamWithRetry_spec
    ⟨fun _ => none, fun _ => none, fun _ => true⟩ 3).2.2.2.2.2.2.2 rfl

/-! ## Single-stream download with opportunistic resume (C6)

`downloadSingleThread` (downloader.go) is embedded up to the point where the
body copy starts; the embedding returns the action the function takes for a
given partial-file size and response: a write (append or truncate, with the
offset written from and the total used for progress), an idempotent success,
the no-range fallback, or an HTTP error. -/

/-- Models `strings.Split(s, sep)` for a one-character separator. -/
def splitOnChar (sep : Char) : List Char → List (List Char)
  | [] => [[]]
  | c :: rest =>
    let ps := splitOnChar sep rest
    if c = sep then [] :: ps
    else
      match ps with
      | [] => [[c]]
      | p :: ps' => (c :: p) :: ps'

/-- The actions `downloadSingleThread` can take after inspecting the
response status. -/
inductive SingleAction
  | write (append : Bool) (startOffset totalForProgress : Int)
  | alreadyComplete
  | fallbackNoRange
  | httpError (status : Nat)
deriving DecidableEq, Repr

/-- The `totalSize` computed for progress tracking in `downloadSingleThread`
(downloader.go): the parsed Content-Length — plus the resume offset on a
206 — else the stream's declared size. -/
def singleTotalSize (streamSize ro : Int) (status : Nat)
    (contentLength : List Char) : Int :=
  if contentLength ≠ [] then
    match parseGoInt contentLength with
    | some size => if status = 206 then size + ro else size
    | none => streamSize
  else streamSize

/-- The file-open and progress decisions after the status switch of
`downloadSingleThread` (downloader.go): append from `ro` on a 206 resume,
else create/truncate and restart from 0. -/
def singleAfterSwitch (ro streamSize : Int) (status : Nat)
    (contentLength : List Char) : SingleAction :=
  if ro > 0 ∧ status = 206 then
    .write true ro (singleTotalSize streamSize ro status contentLength)
  else
    .write false 0 (singleTotalSize streamSize 0 status contentLength)

/-- Embeds the response handling of `downloadSingleThread` (downloader.go):
200 discards the resume offset; 206 resumes; 416 with a parsed
Content-Range total not exceeding the resume offset succeeds idempotently,
any other 416 with a pending resume falls back to the no-range path; every
other status is an HTTP error. -/
def downloadSingleThread (resumeOffset streamSize : Int) (status : Nat)
    (contentRange contentLength : List Char) : SingleAction :=
  if status = 200 then
    let ro := if resumeOffset > 0 then (0 : Int) else resumeOffset
    singleAfterSwitch ro streamSize 200 contentLength
  else if status = 206 then
    singleAfterSwitch resumeOffset streamSize 206 contentLength
  else if status = 416 then
    if resumeOffset > 0 then
      if contentRange ≠ [] then
        if (splitOnChar '/' contentRange).length = 2 then
          match parseGoInt ((splitOnChar '/' contentRange).getD 1 []) with
          | some total =>
            if resumeOffset ≥ total then .alreadyComplete
            else .fallbackNoRange
          | none => .fallbackNoRange
        else .fallbackNoRange
      else .fallbackNoRange
    else .httpError 416
  else .httpError status

/-- C6: with a pre-existing partial file (`resumeOffset > 0`): a 200 causes
a full truncating re-download from offset 0; a 206 appends from
`resumeOffset` with progress total `Content-Length + resumeOffset`; a 416
whose Content-Range total parses to at most `resumeOffset` succeeds without
writing; a 416 whose total exceeds `resumeOffset` escalates to the no-range
re-download; any other status ≥ 400 is returned as an HTTP error. -/
theorem downloadSingleThread_spec (resumeOffset streamSize : Int)
    (contentRange contentLength : List Char) (h : 0 < resumeOffset) :
    (downloadSingleThread resumeOffset streamSize 200 contentRange contentLength =
      .write false 0 (singleTotalSize streamSize 0 200 contentLength)) ∧
    (∀ n, parseGoInt contentLength = some n → contentLength ≠ [] →
      downloadSingleThread resumeOffset streamSize 206 contentRange contentLength =
        .write true resumeOffset (n + resumeOffset)) ∧
    (∀ t, contentRange ≠ [] → (splitOnChar '/' contentRange).length = 2 →
      parseGoInt ((splitOnChar '/' contentRange).getD 1 []) = some t →
      t ≤ resumeOffset →
      downloadSingleThread resumeOffset streamSize 416 contentRange contentLength =
        .alreadyComplete) ∧
    (∀ t, contentRange ≠ [] → (splitOnChar '/' contentRange).length = 2 →
      parseGoInt ((splitOnChar '/' contentRange).getD 1 []) = some t →
      resumeOffset < t →
      downloadSingleThread resumeOffset streamSize 416 contentRange contentLength =
        .fallbackNoRange) ∧
    (∀ status, 400 ≤ status → status ≠ 416 →
      downloadSingleThread resumeOffset streamSize status contentRange contentLength =
        .httpError status) := by
  refine ⟨?_, ?_, ?_, ?_, ?_⟩
  · simp only [downloadSingleThread, if_pos rfl, if_pos h]
    rfl
  · intro n hn hne
    simp only [downloadSingleThread]
    rw [if_neg (by omega), if_pos trivial]
    simp only [singleAfterSwitch, singleTotalSize, if_pos hne, hn]
    rw [if_pos (And.intro h trivial), if_pos trivial]
  · intro t hne hlen hp ht
    simp only [downloadSingleThread]
    rw [if_neg (by omega), if_neg (by omega), if_pos trivial, if_pos h,
      if_pos hne, if_pos hlen]
    simp only [hp]
    rw [if_pos (by omega)]
  · intro t hne hlen hp ht
    simp only [downloadSingleThread]
    rw [if_neg (by omega), if_neg (by omega), if_pos trivial, if_pos h,
      if_pos hne, if_pos hlen]
    simp only [hp]
    rw [if_neg (by omega)]
  · intro status h400 h416
    simp only [downloadSingleThread]
    rw [if_neg (by omega), if_neg (by omega), if_neg (by omega)]

/-- Witness for C6: a 416 for a 5-byte partial file whose Content-Range
declares a 3-byte resource succeeds idempotently. -/
theorem downloadSingleThread_spec_witness :
    downloadSingleThread 5 0 416 "bytes 0-2/3".toList [] = .alreadyComplete :=
  (downloadSingleThread_spec 5 0 "bytes 0-2/3".toList [] (by decide)).2.2.1
    3 (by decide) (by decide) (by decide) (by decide)

/-! ## Master-playlist variant selection (C7)

`processMasterPlaylist` (m3u8.go and its duplicate in the concurrent
reader) selects a variant by scanning for a strictly larger bandwidth.
Playlist entries may be nil in Go (`[]*m3u8.Variant`), embedded as
`Option Variant`.  The caller's quality option is threaded as a parameter
to state its (non-)effect: the Go function has `d.ctx.option.Quality` in
scope but never reads it. -/

/-- The variant fields read by `processMasterPlaylist`: declared bandwidth
(uint32), resolution string, URI. -/
structure Variant where
  Bandwidth : Nat
  Resolution : List Char
  URI : List Char
deriving DecidableEq, Repr

/-- The selection loop of `processMasterPlaylist` (m3u8.go): running
maximum and current selection over the variant slice. -/
def selectVariantLoop : List (Option Variant) → Nat → Option Variant → Option Variant
  | [], _, selected => selected
  | v :: rest, maxBandwidth, selected =>
    match v with
    | some variant =>
      if variant.Bandwidth > maxBandwidth then
        selectVariantLoop rest variant.Bandwidth (some variant)
      else
        selectVariantLoop rest maxBandwidth selected
    | none => selectVariantLoop rest maxBandwidth selected

/-- Embeds the variant selection of `processMasterPlaylist` (m3u8.go):
`maxBandwidth := 0; for variant { if variant != nil && Bandwidth > max }`.
The `quality` parameter is unused by the code. -/
def processMasterPlaylistSelect (variants : List (Option Variant))
    (quality : List Char) : Option Variant :=
  selectVariantLoop variants 0 none

/-- C7 counterexample: with quality "worst" the claim requires the
lowest-bandwidth variant (bandwidth 100), but the code selects the
bandwidth-200 variant. -/
theorem processMasterPlaylistSelect_worst_counterexample :
    processMasterPlaylistSelect
        [some ⟨100, "640x360".toList, "a".toList⟩,
         some ⟨200, "1280x720".toList, "b".toList⟩] "worst".toList =
      some ⟨200, "1280x720".toList, "b".toList⟩ := by
  decide

/-- The running maximum of the bandwidths of the non-nil variants. -/
def maxBandwidthOf (variants : List (Option Variant)) (m : Nat) : Nat :=
  variants.foldl
    (fun acc v => match v with
      | some variant => max acc variant.Bandwidth
      | none => acc) m


theorem le_maxBandwidthOf (variants : List (Option Variant)) :
    ∀ m : Nat, m ≤ maxBandwidthOf variants m := by
  induction variants with
  | nil => intro m; simp [maxBandwidthOf]
  | cons v rest ih =>
    intro m
    cases v with
    | none => simpa [maxBandwidthOf] using ih m
    | some variant =>
      have h1 : m ≤ max m variant.Bandwidth := le_max_left _ _
      have h2 := ih (max m variant.Bandwidth)
      simp only [maxBandwidthOf, List.foldl_cons] at h2 ⊢
      omega

theorem selectVariantLoop_spec (variants : List (Option Variant)) :
    ∀ (m : Nat) (sel : Option Variant),
      selectVariantLoop variants m sel =
        if m < maxBandwidthOf variants m then
          (variants.filterMap id).find?
            (fun v => v.Bandwidth = maxBandwidthOf variants m)
        else sel := by
  induction variants with
  | nil =>
    intro m sel
    simp [selectVariantLoop, maxBandwidthOf]
  | cons v rest ih =>
    intro m sel
    cases v with
    | none =>
      simp only [selectVariantLoop, List.filterMap_cons_none]
      rw [ih m sel]
      rfl
    | some variant =>
      have hM : maxBandwidthOf (some variant :: rest) m =
          maxBandwidthOf rest (max m variant.Bandwidth) := rfl
      have hfm : List.filterMap id (some variant :: rest) =
          variant :: List.filterMap id rest := by simp
      by_cases hgt : variant.Bandwidth > m
      · have hmax : max m variant.Bandwidth = variant.Bandwidth := by omega
        have hle : variant.Bandwidth ≤ maxBandwidthOf rest variant.Bandwidth :=
          le_maxBandwidthOf rest variant.Bandwidth
        simp only [selectVariantLoop, if_pos hgt, hM, hmax]
        rw [ih variant.Bandwidth (some variant), hfm]
        by_cases heq : variant.Bandwidth = maxBandwidthOf rest variant.Bandwidth
        · rw [if_neg (show ¬(variant.Bandwidth <
                maxBandwidthOf rest variant.Bandwidth) by omega),
            if_pos (show m < maxBandwidthOf rest variant.Bandwidth by omega),
            List.find?_cons_of_pos _ (by simpa using heq)]
        · rw [if_pos (show variant.Bandwidth <
                maxBandwidthOf rest variant.Bandwidth by omega),
            if_pos (show m < maxBandwidthOf rest variant.Bandwidth by omega),
            List.find?_cons_of_neg _ (by simpa using heq)]
      · have hmax : max m variant.Bandwidth = m := by omega
        simp only [selectVariantLoop, if_neg hgt, hM, hmax]
        rw [ih m sel, hfm]
        by_cases hlt : m < maxBandwidthOf rest m
        · rw [if_pos hlt, if_pos hlt,
            List.find?_cons_of_neg _
              (by simpa using show variant.Bandwidth ≠ maxBandwidthOf rest m by omega)]
        · rw [if_neg hlt, if_neg hlt]

/-- C7 amended: `processMasterPlaylist` ignores the quality option
entirely: for every playlist it returns the first non-nil variant whose
bandwidth equals the maximum declared bandwidth, provided that maximum is
positive (with all bandwidths 0 — or no non-nil variant — nothing is
selected and Go reports "no suitable variant"); the result is identical
for every quality value. -/
theorem processMasterPlaylistSelect_spec (variants : List (Option Variant))
    (quality : List Char) :
    (processMasterPlaylistSelect variants quality =
      if 0 < maxBandwidthOf variants 0 then
        (variants.filterMap id).find?
          (fun v => v.Bandwidth = maxBandwidthOf variants 0)
      else none) ∧
    (∀ quality', processMasterPlaylistSelect variants quality =
      processMasterPlaylistSelect variants quality') := by
  exact ⟨selectVariantLoop_spec variants 0 none, fun _ => rfl⟩

/-! ## HLS segment fetch and decryption gate (C8)

`fetchSegmentData` (the concurrent reader) and `openSegment` (m3u8.go) both
gate decryption on `segment.Key != nil && segment.Key.Method == "AES-128"`.
The AES-CBC path itself (`decryptSegmentData`) is abstracted as a parameter:
neither the claim's counterexample nor the amended statement enters it. -/

/-- The fields of `m3u8.Key` read by the segment pipeline. -/
structure M3U8Key where
  Method : List Char
  URI : List Char
  IV : List Char
deriving DecidableEq, Repr

/-- Embeds the key handling of `fetchSegmentData` (src/unnamed/part_003):
after a 200 body is read, decrypt iff a key is present with method exactly
"AES-128"; any other method (or no key) returns the bytes as-is. -/
def fetchSegmentData
    (decrypt : List Nat → M3U8Key → Except (List Char) (List Nat))
    (key : Option M3U8Key) (data : List Nat) : Except (List Char) (List Nat) :=
  match key with
  | some k =>
    if k.Method = "AES-128".toList then
      match decrypt data k with
      | .ok decrypted => .ok decrypted
      | .error e => .error e
    else .ok data
  | none => .ok data

/-- C8 counterexample: a segment whose key method is "SAMPLE-AES" is
returned undecrypted with no error — even with a decryptor that always
fails, the bytes pass straight through. -/
theorem fetchSegmentData_passthrough_counterexample :
    fetchSegmentData (fun _ _ => .error "boom".toList)
        (some ⟨"SAMPLE-AES".toList, "k".toList, []⟩) [1, 2, 3] =
      .ok [1, 2, 3] := rfl

/-- C8 amended: decryption runs exactly for keys with method "AES-128";
a missing key or any other method passes the segment bytes through
unchanged and without error. -/
theorem fetchSegmentData_spec
    (decrypt : List Nat → M3U8Key → Except (List Char) (List Nat))
    (key : Option M3U8Key) (data : List Nat) :
    (key = none → fetchSegmentData decrypt key data = .ok data) ∧
    (∀ k, key = some k → k.Method ≠ "AES-128".toList →
      fetchSegmentData decrypt key data = .ok data) ∧
    (∀ k, key = some k → k.Method = "AES-128".toList →
      fetchSegmentData decrypt key data = decrypt data k) := by
  refine ⟨?_, ?_, ?_⟩
  · intro h
    subst h
    rfl
  · intro k hk hm
    subst hk
    simp only [fetchSegmentData, if_neg hm]
  · intro k hk hm
    subst hk
    simp only [fetchSegmentData, if_pos hm]
    cases decrypt data k <;> rfl

/-- Witness for C8 amended: a key with method "NONE" passes bytes through. -/
theorem fetchSegmentData_spec_witness :
    fetchSegmentData (fun d _ => .ok d)
        (some ⟨"NONE".toList, [], []⟩) [7] = .ok [7] :=
  (fetchSegmentData_spec (fun d _ => .ok d)
      (some ⟨"NONE".toList, [], []⟩) [7]).2.1 _ rfl (by decide)

/-! ## PKCS#7 padding strip (C9)

Bytes are embedded as `Nat` values (< 256 in any real run; the claim's
quantification over byte strings is over such lists).  `aes.BlockSize`
is 16. -/

/-- Embeds `removePKCS7Padding` (m3u8.go / src/unnamed/part_003): read the
final byte as the pad length, return the input unchanged when it exceeds
the data length or 16 or when any trailing pad byte differs, else strip. -/
def removePKCS7Padding (data : List Nat) : List Nat :=
  if data.length = 0 then data
  else
    let padLen := data.getLastD 0
    if padLen > data.length ∨ padLen > 16 then data
    else
      if (data.drop (data.length - padLen)).all (fun b => b = padLen) then
        data.take (data.length - padLen)
      else data

/-- C9: `removePKCS7Padding` strips the last `padLen` bytes iff the final
byte value `padLen` is in `[1, 16]`, is at most the data length, and every
one of the last `padLen` bytes equals `padLen`; in every other case —
including empty input and a final byte of 0 — the data is returned
unchanged. -/
theorem removePKCS7Padding_spec (data : List Nat) :
    removePKCS7Padding data =
      if 1 ≤ data.getLastD 0 ∧ data.getLastD 0 ≤ 16 ∧
          data.getLastD 0 ≤ data.length ∧
          (∀ b ∈ data.drop (data.length - data.getLastD 0), b = data.getLastD 0)
      then data.take (data.length - data.getLastD 0)
      else data := by
  by_cases hnil : data.length = 0
  · rw [removePKCS7Padding, if_pos hnil]
    have hlast : data.getLastD 0 = 0 := by
      cases data with
      | nil => rfl
      | cons a l => simp at hnil
    rw [if_neg (by rw [hlast]; rintro ⟨h1, -, -, -⟩; omega)]
  · rw [removePKCS7Padding, if_neg hnil]
    by_cases hgt : data.getLastD 0 > data.length ∨ data.getLastD 0 > 16
    · rw [if_pos hgt, if_neg (by rintro ⟨-, h2, h3, -⟩; omega)]
    · rw [if_neg hgt]
      push_neg at hgt
      by_cases hzero : data.getLastD 0 = 0
      · have hdrop : data.drop (data.length - data.getLastD 0) = [] := by
          rw [hzero, Nat.sub_zero, List.drop_length]
        rw [if_pos (by rw [hdrop]; rfl), hzero, Nat.sub_zero, List.take_length,
          if_neg (by rintro ⟨h1, -, -, -⟩; omega)]
      · by_cases hall : ∀ b ∈ data.drop (data.length - data.getLastD 0),
            b = data.getLastD 0
        · rw [if_pos (by rw [List.all_eq_true]; intro b hb; simpa using hall b hb),
            if_pos ⟨by omega, by omega, by omega, hall⟩]
        · rw [if_neg (by rw [List.all_eq_true]
                         intro hcon
                         exact hall (fun b hb => by simpa using hcon b hb)),
            if_neg (by rintro ⟨-, -, -, h4⟩; exact hall h4)]


/-! ## Filename sanitization (C10)

`SanitizeFilename` (utils/utils.go) operates on a Go string: a regexp
replaces each of the nine reserved characters by an underscore,
`strings.Trim` removes leading/trailing spaces and dots, and
`filename[:255]` caps at 255 BYTES.  The string is embedded as its UTF-8
byte list (`List Nat`): all replaced and trimmed characters are single-byte
ASCII, and ASCII byte values never occur inside multi-byte UTF-8 sequences,
so the byte-level map/trim agrees with Go's rune-level regexp/Trim, while
the cap is byte-exact. -/

/-- The characters the regexp of `SanitizeFilename` replaces, as bytes. -/
def isInvalidFilenameByte (b : Nat) : Bool :=
  b = 60 ∨ b = 62 ∨ b = 58 ∨ b = 34 ∨ b = 47 ∨ b = 92 ∨ b = 124 ∨ b = 63 ∨ b = 42

/-- The cutset of the `strings.Trim` call: space and dot. -/
def isTrimByte (b : Nat) : Bool :=
  b = 32 ∨ b = 46

/-- The regexp replacement step: each invalid byte becomes 95, the
underscore. -/
def sanitizeReplace (s : List Nat) : List Nat :=
  s.map (fun b => if isInvalidFilenameByte b then 95 else b)

/-- The `strings.Trim` step: drop leading and trailing cutset bytes. -/
def sanitizeTrim (s : List Nat) : List Nat :=
  ((s.dropWhile isTrimByte).reverse.dropWhile isTrimByte).reverse

/-- Embeds `SanitizeFilename` (utils/utils.go): replace, trim, cap at 255
bytes. -/
def sanitizeFilename (s : List Nat) : List Nat :=
  let replaced := sanitizeReplace s
  let trimmed := sanitizeTrim replaced
  if trimmed.length > 255 then trimmed.take 255 else trimmed

set_option maxRecDepth 4000 in
/-- C10 counterexample: a 266-byte name of 254 letter-a bytes, a dot, and
11 more letter-a bytes; the 255-byte cap (applied after trimming) cuts
right after the dot, so a second sanitization pass trims that dot off
again, refuting idempotence. -/
theorem sanitizeFilename_cap_counterexample :
    sanitizeFilename (List.replicate 254 97 ++ 46 :: List.replicate 11 97) =
      List.replicate 254 97 ++ [46] ∧
    sanitizeFilename (sanitizeFilename
        (List.replicate 254 97 ++ 46 :: List.replicate 11 97)) =
      List.replicate 254 97 ∧
    sanitizeFilename (sanitizeFilename
        (List.replicate 254 97 ++ 46 :: List.replicate 11 97)) ≠
      sanitizeFilename (List.replicate 254 97 ++ 46 :: List.replicate 11 97) := by
  refine ⟨by decide, by decide, by decide⟩

theorem dropWhile_head_false (p : Nat → Bool) (l : List Nat) :
    ∀ a, (l.dropWhile p).head? = some a → p a = false := by
  induction l with
  | nil => intro a h; simp at h
  | cons b t ih =>
    intro a h
    by_cases hb : p b = true
    · rw [List.dropWhile_cons_of_pos hb] at h
      exact ih a h
    · rw [List.dropWhile_cons_of_neg hb] at h
      simp only [List.head?_cons, Option.some.injEq] at h
      subst h
      exact (Bool.not_eq_true _).mp hb

theorem dropWhile_eq_self_of_head (p : Nat → Bool) (l : List Nat)
    (h : ∀ a, l.head? = some a → p a = false) : l.dropWhile p = l := by
  cases l with
  | nil => rfl
  | cons b t =>
    rw [List.dropWhile_cons_of_neg]
    rw [h b rfl]
    exact Bool.false_ne_true

theorem dropWhile_self_idem (p : Nat → Bool) (l : List Nat) :
    (l.dropWhile p).dropWhile p = l.dropWhile p :=
  dropWhile_eq_self_of_head p _ (dropWhile_head_false p l)

theorem sanitizeTrim_idem (l : List Nat) :
    sanitizeTrim (sanitizeTrim l) = sanitizeTrim l := by
  rw [show sanitizeTrim l =
      ((l.dropWhile isTrimByte).reverse.dropWhile isTrimByte).reverse from rfl]
  rw [sanitizeTrim]
  have h1 : ((l.dropWhile isTrimByte).reverse.dropWhile
      isTrimByte).reverse.dropWhile isTrimByte =
      ((l.dropWhile isTrimByte).reverse.dropWhile isTrimByte).reverse := by
    apply dropWhile_eq_self_of_head
    intro a ha
    rw [List.head?_reverse] at ha
    obtain ⟨t, ht⟩ := List.dropWhile_suffix
      (l := (l.dropWhile isTrimByte).reverse) (p := isTrimByte)
    have hne : (l.dropWhile isTrimByte).reverse.dropWhile isTrimByte ≠ [] := by
      intro hcon
      rw [hcon] at ha
      simp at ha
    have hlast : ((l.dropWhile isTrimByte).reverse).getLast? = some a := by
      rw [← ht, List.getLast?_append_of_ne_nil _ hne]
      exact ha
    rw [List.getLast?_reverse] at hlast
    exact dropWhile_head_false isTrimByte l a hlast
  rw [h1, List.reverse_reverse, dropWhile_self_idem]

theorem mem_sanitizeTrim (l : List Nat) :
    ∀ b ∈ sanitizeTrim l, b ∈ l := by
  intro b hb
  rw [sanitizeTrim, List.mem_reverse] at hb
  have h1 := (List.dropWhile_sublist
    (l := (l.dropWhile isTrimByte).reverse) (p := isTrimByte)).mem hb
  rw [List.mem_reverse] at h1
  exact (List.dropWhile_sublist (l := l) (p := isTrimByte)).mem h1

theorem sanitizeReplace_no_invalid (s : List Nat) :
    ∀ b ∈ sanitizeReplace s, isInvalidFilenameByte b = false := by
  intro b hb
  rw [sanitizeReplace, List.mem_map] at hb
  obtain ⟨a, -, ha⟩ := hb
  by_cases h : isInvalidFilenameByte a = true
  · rw [if_pos h] at ha
    subst ha
    decide
  · rw [Bool.not_eq_true] at h
    rw [h] at ha
    simp only [Bool.false_eq_true, if_false] at ha
    subst ha
    exact h

theorem sanitizeReplace_fixed (s : List Nat)
    (h : ∀ b ∈ s, isInvalidFilenameByte b = false) : sanitizeReplace s = s := by
  rw [sanitizeReplace]
  have hmap := List.map_congr_left
    (f := fun b => if isInvalidFilenameByte b then 95 else b) (g := id)
    (l := s) (fun b hb => by simp [h b hb])
  rw [hmap, List.map_id]

/-- C10 amended: sanitization is idempotent on every input whose
replaced-and-trimmed form does not exceed 255 bytes (so the byte cap does
not truncate); a truncating cap can expose a trailing dot or space that a
second pass removes, as the counterexample shows. -/
theorem sanitizeFilename_idem (s : List Nat)
    (h : (sanitizeTrim (sanitizeReplace s)).length ≤ 255) :
    sanitizeFilename (sanitizeFilename s) = sanitizeFilename s := by
  have hzeta : ∀ u : List Nat, sanitizeFilename u =
      (if (sanitizeTrim (sanitizeReplace u)).length > 255
       then (sanitizeTrim (sanitizeReplace u)).take 255
       else sanitizeTrim (sanitizeReplace u)) := fun u => rfl
  have h1 : sanitizeFilename s = sanitizeTrim (sanitizeReplace s) := by
    rw [hzeta, if_neg (by omega)]
  rw [h1, hzeta]
  have h2 : sanitizeReplace (sanitizeTrim (sanitizeReplace s)) =
      sanitizeTrim (sanitizeReplace s) :=
    sanitizeReplace_fixed _
      (fun b hb => sanitizeReplace_no_invalid s b (mem_sanitizeTrim _ b hb))
  rw [h2, sanitizeTrim_idem, if_neg (by omega)]

/-- Witness for C10 amended: a short name already within the cap. -/
theorem sanitizeFilename_idem_witness :
    (sanitizeTrim (sanitizeReplace [46, 97, 63, 32])).length ≤ 255 ∧
    sanitizeFilename (sanitizeFilename [46, 97, 63, 32]) =
      sanitizeFilename [46, 97, 63, 32] :=
  ⟨by decide, sanitizeFilename_idem [46, 97, 63, 32] (by decide)⟩

end Grab
